import Mathlib

/-!
# Casino-games poker client — verification of the frozen spec claims

A shallow embedding, in Lean 4, of the parts of the `dswho2/casino-games`
client that the frozen claims talk about, together with proofs settling
each claim.

The embedded code (all TypeScript, from the repository's React client):

* `components/chips.ts` — `CHIP_DENOMS` and `amountCentsToDenoms` (the
  greedy chip-denomination expansion).
* `features/game/PokerTable.tsx` — the hand-label helper `labelBestHand`,
  the best-five highlight helper `pickBestFive`, the check/fold default
  button, the raise button's click handler and `minSlider`, the buy-in
  retry loop `startBuyInRetry`, the per-seat hole-card selection used at
  render time, and the `HAND_ENDED` inter-hand wait computation.

The server-side pot engine is not part of the sources; where a claim is
about it, the engine is modelled from the spec (§4.3) and the definition
says so in its doc comment.

Conventions: JS numbers holding card ranks, cents or indices are embedded
as `ℕ` (all the embedded code keeps them non-negative integers); a JS
value that may be `null`/`undefined` is embedded as `Option`; a JS tuple
`[rank, suit]` is a Lean pair.  Where a JS idiom has no direct Lean
counterpart (e.g. a `while` loop, a `Set`, insertion-ordered `Map`
buckets) the embedding notes, next to the definition, why the chosen
translation computes the same value.
-/

namespace CasinoGames

/-! ## Cards -/

/-- The four suits, `"S" | "H" | "D" | "C"` in the client. -/
inductive Suit
  | S
  | H
  | D
  | C
deriving DecidableEq, Repr

/-- A card is a `[Rank, Suit]` tuple in the client; ranks are 2–14 with Ace = 14. -/
abbrev Card := ℕ × Suit

/-! ## `components/chips.ts` -/

/-- `CHIP_DENOMS` from `chips.ts`: the chip denominations, in the greedy order used
by `amountCentsToDenoms`. -/
def CHIP_DENOMS : List ℕ := [5000, 1000, 500, 100, 25, 10, 5, 1]

/-- The inner `while (remain >= d) { out.push(d); remain -= d; }` loop of
`amountCentsToDenoms`, iterated over the denomination list, with the chip cap left
at its default `Infinity` (so `out.length < maxChips` is always true).  For a
positive denomination the loop pushes `d` exactly `remain / d` times and leaves
`remain % d`; a non-positive denomination would never loop. -/
def greedyChips : List ℕ → ℕ → List ℕ
  | [], _ => []
  | d :: ds, remain =>
    if 0 < d then List.replicate (remain / d) d ++ greedyChips ds (remain % d)
    else greedyChips ds remain

/-- `amountCentsToDenoms` from `chips.ts` with the default (unbounded) chip cap:
`dollars = Math.max(0, Math.floor(amountCents / 100))` (the `max` is moot for a
`ℕ` input), greedy expansion over `CHIP_DENOMS`, and a final `[1]` fallback when
the expansion is empty but `dollars > 0`. -/
def amountCentsToDenoms (amountCents : ℕ) : List ℕ :=
  let dollars := amountCents / 100
  let out := greedyChips CHIP_DENOMS dollars
  if out.length = 0 ∧ 0 < dollars then [1] else out

/-! ## `PokerTable.tsx`: `labelBestHand` -/

/-- The rank components of a card list (`cards.map((c) => c[0])`). -/
def ranksOf (cards : List Card) : List ℕ := cards.map Prod.fst

/-- The suit components of a card list (`cards.map((c) => c[1])`). -/
def suitsOf (cards : List Card) : List Suit := cards.map Prod.snd

/-- `Object.values(sc).some((v) => v >= 5)` where `sc` maps each suit that occurs
to its multiplicity: some occurring suit has five or more cards.  The record's
values are the counts of the distinct suits, here recovered as `count` over
`dedup` (the order of the record's keys does not affect `some`). -/
def isFlushOf (suits : List Suit) : Bool :=
  (suits.dedup.map (fun s => suits.count s)).any (fun v => 5 ≤ v)

/-- `Array.from(new Set(ranks)).sort((a, b) => b - a)`: the distinct ranks in
descending order.  A JS `Set` keeps first-occurrence order, which the descending
sort then erases, so sorting `dedup` yields the same list. -/
def uniqDesc (ranks : List ℕ) : List ℕ :=
  List.insertionSort (fun a b => b ≤ a) ranks.dedup

/-- `[...uniq, uniq.includes(14) ? 1 : null].filter(Boolean)`: the descending
distinct ranks, with a trailing `1` appended when an Ace is present (ranks are
≥ 2, so the appended `1` is the only possibly-filtered entry and `14 ∈ uniq ↔ 14
∈ ranks`). -/
def seqOf (ranks : List ℕ) : List ℕ :=
  uniqDesc ranks ++ (if 14 ∈ ranks then [1] else [])

/-- The straight-detection loop of `labelBestHand`:

```js
let straightHigh = 0; let run = 1;
for (let i = 0; i < seq.length - 1; i++) {
  if (seq[i] - 1 === seq[i + 1]) {
    run++;
    if (run >= 5) straightHigh = Math.max(straightHigh, seq[i - 3]);
  } else if (seq[i] !== seq[i + 1]) run = 1;
}
```

embedded with a structural fuel argument (one unit per loop iteration;
`seq.length` units are always enough).  Over the integers `seq[i] - 1 ===
seq[i+1]` is `seq[i] = seq[i+1] + 1`, which is also its `ℕ`-safe rendering.
When `run` first reaches 5 we have `i ≥ 3`, so the `seq[i - 3]` access is
in-bounds and `ℕ` truncation of `i - 3` is never exercised on reachable
states. -/
def straightScanGo (seq : List ℕ) : ℕ → ℕ → ℕ → ℕ → ℕ
  | 0, _, _, sh => sh
  | fuel + 1, i, run, sh =>
    if i + 1 < seq.length then
      if seq.getD i 0 = seq.getD (i + 1) 0 + 1 then
        straightScanGo seq fuel (i + 1) (run + 1)
          (if 5 ≤ run + 1 then max sh (seq.getD (i - 3) 0) else sh)
      else if seq.getD i 0 ≠ seq.getD (i + 1) 0 then
        straightScanGo seq fuel (i + 1) 1 sh
      else
        straightScanGo seq fuel (i + 1) run sh
    else sh

/-- The `straightHigh` value computed by `labelBestHand` for a rank list: the
scan above over `seqOf`, starting from `i = 0`, `run = 1`, `straightHigh = 0`. -/
def straightHighOf (ranks : List ℕ) : ℕ :=
  straightScanGo (seqOf ranks) (seqOf ranks).length 0 1 0

/-- `Object.values(rc)` where `rc` maps each occurring rank to its multiplicity:
the multiset of per-distinct-rank counts (order irrelevant to the uses below). -/
def rankCountValues (ranks : List ℕ) : List ℕ :=
  ranks.dedup.map (fun r => ranks.count r)

/-- `counts.filter((c) => c === 2).length` in `labelBestHand`. -/
def pairsOf (ranks : List ℕ) : ℕ := (rankCountValues ranks).countP (fun c => c = 2)

/-- `counts.filter((c) => c === 3).length` in `labelBestHand`. -/
def tripsOf (ranks : List ℕ) : ℕ := (rankCountValues ranks).countP (fun c => c = 3)

/-- `counts.filter((c) => c === 4).length` in `labelBestHand`. -/
def quadsOf (ranks : List ℕ) : ℕ := (rankCountValues ranks).countP (fun c => c = 4)

/-- `labelBestHand(hole, board)` from `PokerTable.tsx` (lines 165–208): the
hand-type label ("TYPE ONLY") computed from the hole cards plus the board.  A
missing (`undefined`) hole is embedded as a list that fails the length-2 guard.
JS numeric truthiness (`if (quads)` etc.) is rendered as `≠ 0`. -/
def labelBestHand (hole board : List Card) : String :=
  if hole.length = 2 then
    let cards := hole ++ board
    let ranks := ranksOf cards
    let isFlush := isFlushOf (suitsOf cards)
    let straightHigh := straightHighOf ranks
    let pairs := pairsOf ranks
    let trips := tripsOf ranks
    let quads := quadsOf ranks
    if isFlush = true ∧ straightHigh ≠ 0 then "Straight Flush"
    else if quads ≠ 0 then "Four of a Kind"
    else if trips ≠ 0 ∧ (2 ≤ trips ∨ pairs ≠ 0) then "Full House"
    else if isFlush = true then "Flush"
    else if straightHigh ≠ 0 then "Straight"
    else if trips ≠ 0 then "Three of a Kind"
    else if 2 ≤ pairs then "Two Pair"
    else if pairs = 1 then "One Pair"
    else "High Card"
  else ""

/-! ## `PokerTable.tsx`: `pickBestFive` -/

/-- The origin tag of a card inside `pickBestFive` (`src: "B" | "H"`). -/
inductive SrcTag
  | B
  | H
deriving DecidableEq, Repr

/-- The `{ rank, suit, src, idx }` records `pickBestFive` builds from the board
and hole cards.  JS `includes` compares these by object identity; since every
record in play carries a distinct `(src, idx)`, structural equality agrees with
identity. -/
structure SrcCard where
  rank : ℕ
  suit : Suit
  src : SrcTag
  idx : ℕ
deriving DecidableEq, Repr

/-- The run-accumulation loop of `straightFrom`: walk the (descending,
wheel-extended) distinct ranks, extending the current run when the next rank is
one less than the previous (`withWheel[i] === withWheel[i-1] - 1`, rendered
`ℕ`-safely as `w + 1 = prev`), restarting it otherwise, and stopping with the
last five entries of the run as soon as it reaches length 5. -/
def wheelRunScan : List ℕ → Option ℕ → List ℕ → Option (List ℕ)
  | [], _, _ => none
  | w :: rest, prev, run =>
    let run' := match prev with
      | none => run ++ [w]
      | some p => if w + 1 = p then run ++ [w] else [w]
    if 5 ≤ run'.length then some (run'.drop (run'.length - 5))
    else wheelRunScan rest (some w) run'

/-- `straightFrom(cards)` inside `pickBestFive`: find a five-long descending run
among the distinct ranks (an Ace also counts as 1 for the wheel), then pick one
card per run rank — a rank of 1 standing for the Ace — preferring hole cards and
skipping cards already picked; succeed only if five cards were found. -/
def straightFrom (cards : List SrcCard) : Option (List SrcCard) :=
  let uniqRanks := List.insertionSort (fun a b => b ≤ a) (cards.map SrcCard.rank).dedup
  let withWheel := if 14 ∈ uniqRanks then uniqRanks ++ [1] else uniqRanks
  match wheelRunScan withWheel none [] with
  | none => none
  | some best =>
    let out := best.foldl
      (fun out r =>
        let want := if r = 1 then 14 else r
        let candidates := cards.filter (fun c => c.rank == want)
        match (candidates.find? (fun c => c.src == SrcTag.H && !(out.contains c))).orElse
            (fun _ => candidates.find? (fun c => !(out.contains c))) with
        | some pick => out ++ [pick]
        | none => out)
      []
    if out.length = 5 then some out else none

/-- The `{ hand, boardIdx, holeMask }` result of `pickBestFive`. -/
structure BestFive where
  hand : String
  boardIdx : List ℕ
  holeMask : Bool × Bool
deriving DecidableEq, Repr

/-- `pickBestFive(hole, board)` from `PokerTable.tsx` (lines 211–338): compute
`labelBestHand`, then select the cards that realize the named hand type, and
report the selected board indices (ascending) and a hole-card mask.  JS `Map`
buckets keyed by rank/suit, filled in iteration order over `all`, are rendered
as order-preserving `filter`s; the two JS `Set`s of selected indices are
rendered by collecting the selected cards and deduplicating, which the final
ascending sort (`Array.from(set).sort((a, b) => a - b)`) makes equal to the
set's sorted contents.  `flushSuitEntry` takes the first suit, in
first-occurrence order over `all`, whose bucket has five or more cards. -/
def pickBestFive (hole board : List Card) : BestFive :=
  let handName := labelBestHand hole board
  if hole.length ≠ 2 ∨ board.length = 0 then ⟨handName, [], (false, false)⟩
  else
    let bList := board.enum.map (fun p => SrcCard.mk p.2.1 p.2.2 SrcTag.B p.1)
    let hList := hole.enum.map (fun p => SrcCard.mk p.2.1 p.2.2 SrcTag.H p.1)
    let all := bList ++ hList
    let byRank := fun r => all.filter (fun c => c.rank == r)
    let bySuit := fun s => all.filter (fun c => c.suit == s)
    let sortedRanksDesc := List.insertionSort (fun a b => b ≤ a) (all.map SrcCard.rank).dedup
    let flushSuit := ((all.map SrcCard.suit).eraseDups).find? (fun s => 5 ≤ (bySuit s).length)
    let flushCards := flushSuit.map (fun s =>
      List.insertionSort (fun a b => b.rank ≤ a.rank) (bySuit s))
    let straightCards := straightFrom all
    let straightFlushCards := flushCards.bind straightFrom
    let rankCounts := sortedRanksDesc.map (fun r => (r, (byRank r).length))
    let quads := rankCounts.find? (fun rc => rc.2 == 4)
    let tripsAll := rankCounts.filter (fun rc => rc.2 == 3)
    let pairsAll := rankCounts.filter (fun rc => rc.2 == 2)
    let sel : List SrcCard :=
      if handName = "Straight Flush" then straightFlushCards.getD []
      else if handName = "Four of a Kind" then
        match quads with
        | some q => byRank q.1
        | none => []
      else if handName = "Full House" then
        let trips := tripsAll.head?
        let pair := if 1 < tripsAll.length then tripsAll[1]? else pairsAll.head?
        (match trips with | some t => (byRank t.1).take 3 | none => []) ++
          (match pair with | some p => (byRank p.1).take 2 | none => [])
      else if handName = "Flush" then (flushCards.getD []).take 5
      else if handName = "Straight" then straightCards.getD []
      else if handName = "Three of a Kind" then
        match tripsAll.head? with
        | some t => (byRank t.1).take 3
        | none => []
      else if handName = "Two Pair" then
        (match pairsAll.head? with | some p => (byRank p.1).take 2 | none => []) ++
          (match pairsAll[1]? with | some p => (byRank p.1).take 2 | none => [])
      else if handName = "One Pair" then
        match pairsAll.head? with
        | some p => (byRank p.1).take 2
        | none => []
      else hList
    let resultB := ((sel.filter (fun c => c.src == SrcTag.B)).map SrcCard.idx).dedup
    let resultH := ((sel.filter (fun c => c.src == SrcTag.H)).map SrcCard.idx).dedup
    ⟨handName, List.insertionSort (fun a b => a ≤ b) resultB,
      (resultH.contains 0, resultH.contains 1)⟩

/-! ## The spec's hand categories (§4.2), for the refinement comparison

The two definitions below are written from the SPEC's §4.2 wording, not from
the client code: claims C1/C2 compare the client's label helper against "the
category of the maximum-ranked 5-card subset over all 21 five-card subsets". -/

/-- The spec's nine hand categories, §4.2, lowest first. -/
inductive HandCat
  | highCard
  | onePair
  | twoPair
  | threeOfAKind
  | straight
  | flush
  | fullHouse
  | fourOfAKind
  | straightFlush
deriving DecidableEq, Repr

/-- The spec's category order (`high-card < pair < two-pair < trips < straight
< flush < full-house < quads < straight-flush`) as a numeric height. -/
def catRank : HandCat → ℕ
  | .highCard => 0
  | .onePair => 1
  | .twoPair => 2
  | .threeOfAKind => 3
  | .straight => 4
  | .flush => 5
  | .fullHouse => 6
  | .fourOfAKind => 7
  | .straightFlush => 8

/-- Written from the spec, §4.2: the category of one 5-card hand.  A straight is
five distinct ranks that are consecutive in descending order, with the Ace-low
wheel `A-2-3-4-5` allowed; a flush is five cards of one suit; the pair/trips/
quads categories follow the multiset of rank multiplicities. -/
def specCategory5 (cards : List Card) : HandCat :=
  let ranks := ranksOf cards
  let counts := rankCountValues ranks
  let isFlush : Bool := (suitsOf cards).dedup.length == 1
  let uniq := uniqDesc ranks
  let isStraight : Bool := uniq.length == 5 &&
    (uniq == [14, 5, 4, 3, 2] ||
      (List.range 4).all (fun i => uniq.getD i 0 == uniq.getD (i + 1) 0 + 1))
  if isStraight ∧ isFlush then .straightFlush
  else if 4 ∈ counts then .fourOfAKind
  else if 3 ∈ counts ∧ 2 ∈ counts then .fullHouse
  else if isFlush then .flush
  else if isStraight then .straight
  else if 3 ∈ counts then .threeOfAKind
  else if 2 ≤ counts.countP (fun c => c = 2) then .twoPair
  else if 2 ∈ counts then .onePair
  else .highCard

/-- Written from the spec, §4.2: the category of the maximum-ranked 5-card
subset of a card set, under the spec's category order — for 7 cards, the
maximum over all 21 five-card subsets. -/
def specBestCategory (cards : List Card) : HandCat :=
  ((cards.sublistsLen 5).map specCategory5).foldl
    (fun a b => if catRank a < catRank b then b else a) HandCat.highCard

/-! ## The pot engine (spec §4.3) -/

/-- Modelled from the spec: a `PlayerInHand` as the Pot Engine sees it at hand
end — total contribution and fold status (spec §4.3: "given the list of
PlayerInHand contributions at hand end (total_contribution per seat, fold
status)").  The server-side Pot Engine itself is not among the repository's
sources under `src/` (the sources are the React client only), so the engine is
modelled from the spec's words here. -/
structure PlayerContrib where
  contrib : ℕ
  folded : Bool
deriving DecidableEq, Repr

/-- Modelled from the spec: one pot of §4.3 — an amount, the contribution
threshold that layers it, and the eligible seats (seats whose total
contribution reached the threshold and who did not fold). -/
structure Pot where
  threshold : ℕ
  amount : ℕ
  eligible : List ℕ
deriving DecidableEq, Repr

/-- Modelled from the spec: the distinct all-in contribution thresholds,
ascending (§4.3 "pots are layered by distinct all-in contribution thresholds
(ascending)").  Every distinct positive contribution is a layer boundary, so
that "a player who folded after contributing still leaves their chips in the
pot(s) below their final contribution". -/
def potLevels (contribs : List ℕ) : List ℕ :=
  List.insertionSort (fun a b => a ≤ b) (contribs.filter (fun c => 0 < c)).dedup

/-- Modelled from the spec: the chips a layer `(lo, hi]` collects — each seat
contributes the part of its total contribution that falls in the layer
(§4.3's "threshold delta multiplied by the number of contributors reaching
that layer, summed correctly so that a player who folded after contributing
still leaves their chips in the pot(s) below their final contribution"). -/
def layerAmount (contribs : List ℕ) (lo hi : ℕ) : ℕ :=
  (contribs.map (fun c => min c hi - min c lo)).sum

/-- Modelled from the spec: the Pot Engine of §4.3 — the ordered list of pots,
layered by ascending thresholds; each pot holds its layer's chips and is
eligible to every non-folded seat whose total contribution reached its
threshold. -/
def buildPots (players : List PlayerContrib) : List Pot :=
  let contribs := players.map PlayerContrib.contrib
  let levels := potLevels contribs
  (levels.zip (0 :: levels)).map (fun t =>
    { threshold := t.1
      amount := layerAmount contribs t.2 t.1
      eligible := (players.enum.filter
        (fun p => decide (t.1 ≤ p.2.contrib) && !p.2.folded)).map Prod.fst })

/-! ## `PokerTable.tsx`: betting controls -/

/-- The Check/Fold button of `PokerTable.tsx` (line 1716):
`sendPlayerAction(toCall > 0 ? "fold" : "check")` — the action string the
client submits when the player (or the timeout-equivalent default) defers to
check-if-free, fold-otherwise. -/
def checkFoldAction (toCall : ℕ) : String :=
  if 0 < toCall then "fold" else "check"

/-- `minSlider` from `PokerTable.tsx` (line 1340): the bet-slider's lower
bound, `(hand?.curBet ?? 0) === 0 ? minRaise : (hand?.curBet ?? 0) + minRaise`. -/
def minSlider (curBet minRaise : ℕ) : ℕ :=
  if curBet = 0 then minRaise else curBet + minRaise

/-- The bet/raise row of `PokerTable.tsx` (lines 1745–1767) renders the Raise
button exactly when `(hand?.curBet ?? 0) === 0` is false. -/
def raiseButtonShown (curBet : ℕ) : Bool := curBet ≠ 0

/-- The Raise button's click handler (lines 1757–1766): with
`toTotal = Math.round(Number(betInput || "0") * 100)`, it submits
`sendPlayerAction("raise", toTotal)` unless `!Number.isFinite(toTotal) ||
toTotal <= 0` (the finiteness test cannot fail for a `ℕ` total). -/
def raiseOnClickSends (toTotal : ℕ) : Bool := 0 < toTotal

/-- A raise for `toTotal` cents reaches the server exactly when the Raise
button is rendered (current bet nonzero) and its click handler's guard passes. -/
def raiseSubmitted (curBet toTotal : ℕ) : Bool :=
  raiseButtonShown curBet && raiseOnClickSends toTotal

/-! ## `PokerTable.tsx`: the buy-in retry loop -/

/-- One run of the environment the buy-in retry loop (`startBuyInRetry`,
lines 1046–1070) observes: at each poll `k`, whether the pending buy-in
request is still set (`awaitingBuyIn.current`), and which seat — if any — the
client currently has confirmed as its own (`mySeatRef.current`).  Clearing of
the pending request (on `BUY_IN_APPLIED` or cancel, which also clears the
timer) is modelled by `awaiting` turning false. -/
structure BuyInRun where
  awaiting : ℕ → Bool
  mySeat : ℕ → Option ℕ

/-- Whether the retry loop's `trySend` executes poll `k`: the first poll always
fires; poll `k + 1` fires only if poll `k` fired, still saw the request pending
(`if (!awaitingBuyIn.current) return` kills the loop), and the attempt counter
stayed below 12 (`if (buyInAttemptRef.current < 12 && awaitingBuyIn.current)`
reschedules). -/
def retryExecuted (tr : BuyInRun) : ℕ → Bool
  | 0 => true
  | k + 1 => retryExecuted tr k && tr.awaiting k && decide (k + 1 < 12)

/-- Whether the retry loop sends `BUY_IN` at poll `k`: the poll executes, the
request is still pending, and `mySeatRef.current === awaitingBuyIn.current.seatNo`
(the confirmed seat equals the requested one). -/
def retrySends (tr : BuyInRun) (seatNo k : ℕ) : Bool :=
  retryExecuted tr k && tr.awaiting k && (tr.mySeat k == some seatNo)

/-! ## `PokerTable.tsx`: per-seat hole-card rendering -/

/-- A seat's two hole cards (`[[Rank, Suit], [Rank, Suit]]` — the pair type
makes the client's `length === 2` checks structurally true). -/
abbrev HoleCards := Card × Card

/-- The post-hand showdown state the renderer consults: the server-provided
`revealed` and `folded` hole-card maps (seat number to cards). -/
structure ShowdownView where
  revealed : ℕ → Option HoleCards
  foldedMap : ℕ → Option HoleCards

/-- The `showHole` selection of the seat renderer (`PokerTable.tsx`, lines
1444–1458): start from `null`; during showdown take the seat's revealed cards,
or — for one's own folded seat — the folded cards; outside showdown show
`hand.myHole` only for one's own seat. -/
def showHoleFor (sd : Option ShowdownView) (seatIndex : ℕ) (isMe didFold : Bool)
    (myHole : Option HoleCards) : Option HoleCards :=
  let fromShowdown : Option HoleCards :=
    match sd with
    | some s =>
      match s.revealed seatIndex with
      | some h => some h
      | none => if didFold && isMe then s.foldedMap seatIndex else none
    | none => none
  match sd, isMe, myHole with
  | none, true, some h => some h
  | _, _, _ => fromShowdown

/-- What the seat's hole-card row renders (lines 1532–1570): the selected
cards face-up when `showHole` is set; otherwise two face-down cards when the
seat has a `PlayerPublic` record (`pub`), and nothing at all otherwise. -/
inductive HoleRender
  | faceUp (h : HoleCards)
  | faceDown
  | empty
deriving DecidableEq

/-- The hole-card row as a function of the `showHole` selection and of whether
the seat is in the hand (`pub` present). -/
def renderHole (showHole : Option HoleCards) (pubPresent : Bool) : HoleRender :=
  match showHole with
  | some h => .faceUp h
  | none => if pubPresent then .faceDown else .empty

/-! ## `PokerTable.tsx`: the inter-hand wait -/

/-- `MIN_INTER_HAND_MS` from `PokerTable.tsx` (line 14): the client-side
minimum pause between hands, in milliseconds. -/
def MIN_INTER_HAND_MS : ℕ := 8000

/-- The `HAND_ENDED` handler (lines 967–979): the inter-hand wait deadline,
`Date.now() + Math.max(MIN_INTER_HAND_MS, msg.waitMs ?? 0)`. -/
def handEndedWaitUntil (now : ℕ) (waitMs : Option ℕ) : ℕ :=
  now + max MIN_INTER_HAND_MS (waitMs.getD 0)

/-! ## Helper lemmas -/

instance : IsTotal ℕ (fun a b => b ≤ a) := ⟨fun a b => le_total b a⟩

instance : IsTrans ℕ (fun a b => b ≤ a) := ⟨fun _ _ _ h1 h2 => le_trans h2 h1⟩

instance : IsAntisymm ℕ (fun a b => b ≤ a) := ⟨fun _ _ h1 h2 => le_antisymm h2 h1⟩

/-- Every chip the greedy expansion emits is one of the denominations it was
given. -/
theorem greedyChips_mem {denoms : List ℕ} {remain d : ℕ}
    (h : d ∈ greedyChips denoms remain) : d ∈ denoms := by
  induction denoms generalizing remain with
  | nil => simp [greedyChips] at h
  | cons x xs ih =>
    by_cases hx : 0 < x
    · rw [greedyChips, if_pos hx] at h
      rcases List.mem_append.mp h with h1 | h2
      · rw [List.eq_of_mem_replicate h1]
        exact List.mem_cons_self x xs
      · exact List.mem_cons_of_mem _ (ih h2)
    · rw [greedyChips, if_neg hx] at h
      exact List.mem_cons_of_mem _ (ih h)

/-- Over the concrete denomination list — which ends in 1 — the greedy
expansion accounts for every dollar. -/
theorem greedyChips_CHIP_DENOMS_sum (n : ℕ) :
    (greedyChips CHIP_DENOMS n).sum = n := by
  simp [CHIP_DENOMS, greedyChips, List.sum_replicate, smul_eq_mul]
  omega

/-! ## Claim C9 -/

/-- C9: for every non-negative integer `amountCents`, with the chip cap left at
its default (unbounded), every element of `amountCentsToDenoms amountCents`
belongs to `CHIP_DENOMS` and the elements sum to exactly `⌊amountCents / 100⌋`;
sub-dollar remainders are discarded. -/
theorem amountCentsToDenoms_sound (amountCents : ℕ) :
    (∀ d ∈ amountCentsToDenoms amountCents, d ∈ CHIP_DENOMS) ∧
      (amountCentsToDenoms amountCents).sum = amountCents / 100 := by
  unfold amountCentsToDenoms
  have hsum := greedyChips_CHIP_DENOMS_sum (amountCents / 100)
  by_cases h : (greedyChips CHIP_DENOMS (amountCents / 100)).length = 0 ∧
      0 < amountCents / 100
  · exfalso
    obtain ⟨hlen, hpos⟩ := h
    rw [List.length_eq_zero] at hlen
    rw [hlen] at hsum
    simp at hsum
    omega
  · simp only [if_neg h]
    exact ⟨fun d hd => greedyChips_mem hd, hsum⟩

/-- C9 witness: at 6342 cents the expansion contains the denomination 25,
which is a legal chip, and the chips sum to the 63 whole dollars. -/
theorem amountCentsToDenoms_sound_witness :
    25 ∈ amountCentsToDenoms 6342 ∧ 25 ∈ CHIP_DENOMS ∧
      (amountCentsToDenoms 6342).sum = 63 :=
  ⟨by decide, (amountCentsToDenoms_sound 6342).1 25 (by decide),
    (amountCentsToDenoms_sound 6342).2.trans (by norm_num)⟩

/-! ## Claim C5 -/

/-- C5: the client's default (timeout-equivalent) check/fold action submits
"check" exactly when the to-call amount is 0 and submits "fold" exactly when
the to-call amount is greater than 0. -/
theorem checkFoldAction_cases (toCall : ℕ) :
    (checkFoldAction toCall = "check" ↔ toCall = 0) ∧
      (checkFoldAction toCall = "fold" ↔ 0 < toCall) := by
  rcases Nat.eq_zero_or_pos toCall with h | h
  · subst h
    exact ⟨by decide, by decide⟩
  · rw [checkFoldAction, if_pos h]
    exact ⟨⟨fun hs => absurd hs (by decide), fun h0 => by omega⟩,
      ⟨fun _ => h, fun _ => rfl⟩⟩

/-! ## Claim C6 -/

/-- C6 counterexample: with current bet 100 cents, street minimum-raise
increment 100 cents and a stack of 10000 cents, a raise to a total of 150
cents is submitted to the server although the raise-by amount (50) is below
the minimum-raise increment and the player is not going all-in. -/
theorem raise_below_minimum_submitted :
    raiseSubmitted 100 150 = true ∧ ¬(100 ≤ 150 - 100 ∨ 150 = 10000) := by
  decide

/-- C6 amended: a raise action is submitted to the server exactly when the
current bet is nonzero and the raise total parsed from the bet input is
positive; the street's minimum-raise increment is not enforced by the client
at submission time (the slider bound `minSlider` only seeds the input). -/
theorem raiseSubmitted_iff (curBet toTotal : ℕ) :
    raiseSubmitted curBet toTotal = true ↔ (curBet ≠ 0 ∧ 0 < toTotal) := by
  simp [raiseSubmitted, raiseButtonShown, raiseOnClickSends]

/-! ## Claim C10 -/

/-- C10: on every `HAND_ENDED` event the client sets the inter-hand wait
deadline to the current time plus `max 8000 waitMs` (a missing `waitMs`
counting as 0), so the pause is never shorter than 8 seconds. -/
theorem handEndedWaitUntil_floor (now : ℕ) (waitMs : Option ℕ) :
    handEndedWaitUntil now waitMs = now + max 8000 (waitMs.getD 0) ∧
      now + 8000 ≤ handEndedWaitUntil now waitMs := by
  refine ⟨rfl, ?_⟩
  have h : (8000 : ℕ) ≤ max 8000 (waitMs.getD 0) := le_max_left _ _
  exact Nat.add_le_add_left h now

/-! ## Claim C8 -/

/-- C8: before showdown (`showdown` state absent), a seat that is not the
viewer's own renders a constant — two face-down cards when the seat is in the
hand, nothing otherwise — independent of that seat's actual cards (which are
not even an input of the selection); and the viewer's own seat shows exactly
`hand.myHole` during a live hand. -/
theorem preShowdown_render_independent (seatIndex : ℕ) (didFold : Bool)
    (myHole : Option HoleCards) (pubPresent : Bool) :
    renderHole (showHoleFor none seatIndex false didFold myHole) pubPresent
        = (if pubPresent then HoleRender.faceDown else HoleRender.empty) ∧
      (∀ h : HoleCards, showHoleFor none seatIndex true didFold (some h) = some h) := by
  constructor
  · cases myHole <;> rfl
  · intro h
    rfl

/-! ## Claim C7 -/

/-- Poll `k` of the retry loop executes exactly when fewer than 12 polls have
happened and every earlier poll still saw the buy-in request pending. -/
theorem retryExecuted_iff (tr : BuyInRun) (k : ℕ) :
    retryExecuted tr k = true ↔ (k < 12 ∧ ∀ j, j < k → tr.awaiting j = true) := by
  induction k with
  | zero => simp [retryExecuted]
  | succ k ih =>
    rw [retryExecuted, Bool.and_eq_true, Bool.and_eq_true, ih, decide_eq_true_iff]
    constructor
    · rintro ⟨⟨⟨-, hall⟩, hk⟩, hlt⟩
      refine ⟨hlt, fun j hj => ?_⟩
      rcases Nat.lt_succ_iff_lt_or_eq.mp hj with hj' | rfl
      · exact hall j hj'
      · exact hk
    · rintro ⟨hlt, hall⟩
      exact ⟨⟨⟨by omega, fun j hj => hall j (by omega)⟩,
        hall k (Nat.lt_succ_self k)⟩, hlt⟩

/-- A run in which the requested seat is confirmed only at poll 12 — one poll
after the retry loop's last one. -/
def lateSeatRun : BuyInRun :=
  ⟨fun _ => true, fun k => if k < 12 then none else some 3⟩

/-- C7 counterexample: a run in which seat 3 is eventually confirmed as the
client's seat (at poll 12), yet the retry loop — which polls at most 12 times,
indices 0 through 11 — never sends `BUY_IN`. -/
theorem buyInRetry_misses_late_confirmation :
    (∃ k, lateSeatRun.mySeat k = some 3) ∧
      ∀ k, retrySends lateSeatRun 3 k = false := by
  constructor
  · exact ⟨12, by simp [lateSeatRun]⟩
  · intro k
    cases hs : retrySends lateSeatRun 3 k with
    | false => rfl
    | true =>
      exfalso
      have hs' := hs
      rw [retrySends, Bool.and_eq_true, Bool.and_eq_true] at hs'
      obtain ⟨⟨hex, -⟩, hseat⟩ := hs'
      have hk : k < 12 := ((retryExecuted_iff lateSeatRun k).mp hex).1
      have hnone : lateSeatRun.mySeat k = none := by simp [lateSeatRun, hk]
      rw [hnone] at hseat
      exact absurd hseat (by decide)

/-- C7 amended: the retry loop polls at most 12 times; it sends `BUY_IN` at a
poll exactly when the request was still pending at that poll and every earlier
one, and the seat confirmed at that poll equals the requested seat — in
particular it never sends while the confirmed seat differs from the requested
seat, and a run whose confirmation arrives only after the 12-poll window gets
no `BUY_IN` from the loop. -/
theorem retrySends_iff (tr : BuyInRun) (seatNo k : ℕ) :
    retrySends tr seatNo k = true ↔
      (k < 12 ∧ (∀ j, j < k → tr.awaiting j = true) ∧ tr.awaiting k = true ∧
        tr.mySeat k = some seatNo) := by
  rw [retrySends, Bool.and_eq_true, Bool.and_eq_true, retryExecuted_iff,
    beq_iff_eq]
  tauto

/-! ## Claim C1 -/

/-- The hole cards of the C1 failing input: a heart (making five hearts with
the board) and an offsuit 6 (making a 2-to-6 straight with the board). -/
def flushTrapHole : List Card := [(9, Suit.H), (6, Suit.S)]

/-- The board of the C1 failing input: four low hearts and an offsuit Ace. -/
def flushTrapBoard : List Card :=
  [(2, Suit.H), (3, Suit.H), (4, Suit.H), (5, Suit.H), (14, Suit.C)]

/-- C1: on the 7 cards 9♥ 6♠ / 2♥ 3♥ 4♥ 5♥ A♣ — which hold a heart flush and a
2-to-6 straight but no straight flush — `labelBestHand` answers "Straight
Flush", while the category of the maximum-ranked 5-card subset over all 21
subsets under the spec's order is only a flush. -/
theorem labelBestHand_flushTrap_mislabels :
    labelBestHand flushTrapHole flushTrapBoard = "Straight Flush" ∧
      specBestCategory (flushTrapHole ++ flushTrapBoard) = HandCat.flush ∧
      HandCat.flush ≠ HandCat.straightFlush :=
  ⟨by decide, by decide, by decide⟩

/-! ## Claim C2 -/

/-- The hole cards of the C2 failing input: a pair of Aces. -/
def pairHole : List Card := [(14, Suit.S), (14, Suit.H)]

/-- The board of the C2 failing input: five unconnected, unsuited cards. -/
def pairBoard : List Card :=
  [(2, Suit.C), (7, Suit.D), (9, Suit.S), (11, Suit.H), (13, Suit.C)]

/-- C2: on A♠ A♥ / 2♣ 7♦ 9♠ J♥ K♣ the reported hand is "One Pair", but the
returned board indices and hole mask select only the two pair cards — 2 cards,
not a winning 5-card selection. -/
theorem pickBestFive_pair_selects_two :
    pickBestFive pairHole pairBoard
        = { hand := "One Pair", boardIdx := [], holeMask := (true, true) } ∧
      (pickBestFive pairHole pairBoard).boardIdx.length
          + (cond (pickBestFive pairHole pairBoard).holeMask.1 1 0)
          + (cond (pickBestFive pairHole pairBoard).holeMask.2 1 0) = 2 :=
  ⟨by decide, by decide⟩

/-! ## Claim C3 -/

/-- Two nested list sums commute. -/
theorem sum_map_sum_swap {α β : Type} (l1 : List α) (l2 : List β) (f : α → β → ℕ) :
    (l1.map (fun a => (l2.map (fun b => f a b)).sum)).sum
      = (l2.map (fun b => (l1.map (fun a => f a b)).sum)).sum := by
  induction l1 with
  | nil => simp
  | cons x xs ih =>
    rw [List.map_cons, List.sum_cons, ih, ← List.sum_map_add]
    simp only [List.map_cons, List.sum_cons]

/-- The head of a `≤`-chain is bounded by the chain's last element. -/
theorem le_getLastD_of_chain :
    ∀ (xs : List ℕ) (x : ℕ), List.Chain (· ≤ ·) x xs → x ≤ xs.getLastD x
  | [], x, _ => le_refl x
  | y :: ys, x, h => by
    rcases List.chain_cons.mp h with ⟨hxy, hys⟩
    rw [List.getLastD_cons]
    exact le_trans hxy (le_getLastD_of_chain ys y hys)

/-- Every member of an ascending sorted list is bounded by its last element. -/
theorem sorted_mem_le_getLastD :
    ∀ {l : List ℕ}, List.Sorted (· ≤ ·) l → ∀ {x : ℕ}, x ∈ l → ∀ d, x ≤ l.getLastD d
  | [], _, x, hx, _ => absurd hx (List.not_mem_nil x)
  | y :: ys, hs, x, hx, d => by
    rw [List.getLastD_cons]
    rcases List.mem_cons.mp hx with rfl | hmem
    · exact le_getLastD_of_chain ys x (List.chain_iff_pairwise.mpr hs)
    · exact sorted_mem_le_getLastD (List.sorted_cons.mp hs).2 hmem y

/-- The layer parts of one contribution, summed along an ascending layer list
that starts at 0, telescope to the contribution capped at the last layer. -/
theorem telescope_min_zip (c : ℕ) :
    ∀ (ls : List ℕ) (prev : ℕ), List.Chain (· ≤ ·) prev ls →
      ((ls.zip (prev :: ls)).map (fun t => min c t.1 - min c t.2)).sum
        = min c (ls.getLastD prev) - min c prev
  | [], prev, _ => by simp
  | x :: xs, prev, h => by
    rcases List.chain_cons.mp h with ⟨hpx, hxs⟩
    rw [List.getLastD_cons, List.zip_cons_cons, List.map_cons, List.sum_cons,
      telescope_min_zip c xs x hxs]
    have h1 : min c prev ≤ min c x := min_le_min (le_refl c) hpx
    have h2 : min c x ≤ min c (xs.getLastD x) :=
      min_le_min (le_refl c) (le_getLastD_of_chain xs x hxs)
    omega

/-- C3: at the moment of distribution the pot amounts the engine builds sum to
exactly the players' total contributions for the hand — no currency unit is
created or destroyed. -/
theorem buildPots_conserves_chips (players : List PlayerContrib) :
    ((buildPots players).map Pot.amount).sum
      = (players.map PlayerContrib.contrib).sum := by
  set contribs := players.map PlayerContrib.contrib with hc
  set levels := potLevels contribs with hl
  have hsorted : List.Sorted (· ≤ ·) levels := by
    rw [hl, potLevels]
    exact List.sorted_insertionSort _ _
  have hchain : List.Chain (· ≤ ·) 0 levels :=
    List.chain_iff_pairwise.mpr
      (List.pairwise_cons.mpr ⟨fun b _ => Nat.zero_le b, hsorted⟩)
  have hamounts : (buildPots players).map Pot.amount
      = (levels.zip (0 :: levels)).map (fun t => layerAmount contribs t.2 t.1) := by
    simp [buildPots, List.map_map, Function.comp, ← hc, ← hl]
  rw [hamounts]
  simp only [layerAmount]
  rw [sum_map_sum_swap (levels.zip (0 :: levels)) contribs
    (fun t c => min c t.1 - min c t.2)]
  have hinner : contribs.map (fun c =>
        ((levels.zip (0 :: levels)).map (fun t => min c t.1 - min c t.2)).sum)
      = contribs.map (fun c => c) := by
    apply List.map_eq_map_iff.mpr
    intro c hcmem
    rw [telescope_min_zip c levels 0 hchain]
    rcases Nat.eq_zero_or_pos c with rfl | hpos
    · simp
    · have hmem : c ∈ levels := by
        rw [hl, potLevels, (List.perm_insertionSort _ _).mem_iff, List.mem_dedup,
          List.mem_filter]
        exact ⟨hcmem, by simpa using hpos⟩
      have hle : c ≤ levels.getLastD 0 := sorted_mem_le_getLastD hsorted hmem 0
      rw [min_eq_left hle]
      simp
  rw [hinner, List.map_id']

/-! ## Claim C4: the straight-detection scan finds the wheel -/

/-- The scan's one-step unfolding, for rewriting. -/
theorem straightScanGo_succ (seq : List ℕ) (fuel i run sh : ℕ) :
    straightScanGo seq (fuel + 1) i run sh =
      if i + 1 < seq.length then
        if seq.getD i 0 = seq.getD (i + 1) 0 + 1 then
          straightScanGo seq fuel (i + 1) (run + 1)
            (if 5 ≤ run + 1 then max sh (seq.getD (i - 3) 0) else sh)
        else if seq.getD i 0 ≠ seq.getD (i + 1) 0 then
          straightScanGo seq fuel (i + 1) 1 sh
        else straightScanGo seq fuel (i + 1) run sh
      else sh := rfl

/-- The scan never decreases its `straightHigh` accumulator. -/
theorem le_straightScanGo (seq : List ℕ) :
    ∀ (fuel i run sh : ℕ), sh ≤ straightScanGo seq fuel i run sh
  | 0, _, _, sh => le_refl sh
  | fuel + 1, i, run, sh => by
    rw [straightScanGo_succ]
    split
    · split
      · refine le_trans ?_ (le_straightScanGo seq fuel (i + 1) (run + 1) _)
        split
        · exact le_max_left _ _
        · exact le_refl sh
      · split
        · exact le_straightScanGo seq fuel (i + 1) 1 sh
        · exact le_straightScanGo seq fuel (i + 1) run sh
    · exact le_refl sh

/-- One scan step along a descending-consecutive pair. -/
theorem straightScanGo_step (seq : List ℕ) (fuel i run sh : ℕ)
    (hlen : i + 1 < seq.length) (hcons : seq.getD i 0 = seq.getD (i + 1) 0 + 1) :
    straightScanGo seq (fuel + 1) i run sh =
      straightScanGo seq fuel (i + 1) (run + 1)
        (if 5 ≤ run + 1 then max sh (seq.getD (i - 3) 0) else sh) := by
  rw [straightScanGo_succ, if_pos hlen, if_pos hcons]

/-- Started on the first of five descending-consecutive entries with enough
fuel, the scan's result is at least the value at that entry. -/
theorem straightScanGo_chain (seq : List ℕ) (p : ℕ)
    (hc0 : seq.getD p 0 = seq.getD (p + 1) 0 + 1)
    (hc1 : seq.getD (p + 1) 0 = seq.getD (p + 1 + 1) 0 + 1)
    (hc2 : seq.getD (p + 1 + 1) 0 = seq.getD (p + 1 + 1 + 1) 0 + 1)
    (hc3 : seq.getD (p + 1 + 1 + 1) 0 = seq.getD (p + 1 + 1 + 1 + 1) 0 + 1)
    (hlen : p + 1 + 1 + 1 + 1 < seq.length)
    (fuel run sh : ℕ) (hrun : 1 ≤ run) (hfuel : 4 ≤ fuel) :
    seq.getD p 0 ≤ straightScanGo seq fuel p run sh := by
  obtain ⟨f, rfl⟩ : ∃ f, fuel = f + 4 := ⟨fuel - 4, by omega⟩
  show seq.getD p 0 ≤ straightScanGo seq ((f + 3) + 1) p run sh
  rw [straightScanGo_step seq (f + 3) p run sh (by omega) hc0]
  show seq.getD p 0 ≤ straightScanGo seq ((f + 2) + 1) (p + 1) (run + 1) _
  rw [straightScanGo_step seq (f + 2) (p + 1) (run + 1) _ (by omega) hc1]
  show seq.getD p 0 ≤ straightScanGo seq ((f + 1) + 1) (p + 1 + 1) (run + 1 + 1) _
  rw [straightScanGo_step seq (f + 1) (p + 1 + 1) (run + 1 + 1) _ (by omega) hc2]
  show seq.getD p 0 ≤ straightScanGo seq (f + 1) (p + 1 + 1 + 1) (run + 1 + 1 + 1) _
  rw [straightScanGo_step seq f (p + 1 + 1 + 1) (run + 1 + 1 + 1) _ (by omega) hc3]
  rw [if_pos (show 5 ≤ run + 1 + 1 + 1 + 1 by omega),
    show p + 1 + 1 + 1 - 3 = p from by omega]
  exact le_trans (le_max_right _ _)
    (le_straightScanGo seq f (p + 1 + 1 + 1 + 1) (run + 1 + 1 + 1 + 1) _)

/-- Started anywhere at or before the five-run, with enough fuel, the scan's
result is at least the value at the run's first entry. -/
theorem straightScanGo_reach (seq : List ℕ) (p : ℕ)
    (hc0 : seq.getD p 0 = seq.getD (p + 1) 0 + 1)
    (hc1 : seq.getD (p + 1) 0 = seq.getD (p + 1 + 1) 0 + 1)
    (hc2 : seq.getD (p + 1 + 1) 0 = seq.getD (p + 1 + 1 + 1) 0 + 1)
    (hc3 : seq.getD (p + 1 + 1 + 1) 0 = seq.getD (p + 1 + 1 + 1 + 1) 0 + 1)
    (hlen : p + 1 + 1 + 1 + 1 < seq.length) :
    ∀ (d fuel i run sh : ℕ), i + d = p → 1 ≤ run → d + 4 ≤ fuel →
      seq.getD p 0 ≤ straightScanGo seq fuel i run sh := by
  intro d
  induction d with
  | zero =>
    intro fuel i run sh hip hrun hfuel
    obtain rfl : i = p := by omega
    exact straightScanGo_chain seq i hc0 hc1 hc2 hc3 hlen fuel run sh hrun (by omega)
  | succ d ih =>
    intro fuel i run sh hip hrun hfuel
    obtain ⟨f, rfl⟩ : ∃ f, fuel = f + 1 := ⟨fuel - 1, by omega⟩
    rw [straightScanGo_succ, if_pos (show i + 1 < seq.length by omega)]
    split
    · exact ih f (i + 1) (run + 1) _ (by omega) (by omega) (by omega)
    · split
      · exact ih f (i + 1) 1 sh (by omega) (le_refl 1) (by omega)
      · exact ih f (i + 1) run sh (by omega) hrun (by omega)

/-- The entry at index 0 of a list known to be a cons. -/
theorem get_zero_of_eq_cons {l : List ℕ} {y : ℕ} {ys : List ℕ}
    (h : l = y :: ys) (hl : 0 < l.length) : l.get ⟨0, hl⟩ = y := by
  subst h
  rfl

/-- When the ranks contain 2, 3, 4 and 5 and nothing below 2, the descending
distinct-rank list ends in `[5, 4, 3, 2]`, everything before it being at least
6. -/
theorem uniqDesc_wheel_suffix (ranks : List ℕ)
    (m2 : 2 ∈ ranks) (m3 : 3 ∈ ranks) (m4 : 4 ∈ ranks) (m5 : 5 ∈ ranks)
    (hval : ∀ r ∈ ranks, 2 ≤ r) :
    ∃ t, uniqDesc ranks = t ++ [5, 4, 3, 2] ∧ ∀ x ∈ t, 6 ≤ x := by
  have hnodup : (uniqDesc ranks).Nodup :=
    (List.perm_insertionSort _ _).nodup_iff.mpr (List.nodup_dedup ranks)
  have hsorted : List.Sorted (fun a b => b ≤ a) (uniqDesc ranks) :=
    List.sorted_insertionSort _ _
  have hmemu : ∀ x, x ∈ uniqDesc ranks ↔ x ∈ ranks := by
    intro x
    rw [uniqDesc, (List.perm_insertionSort _ _).mem_iff, List.mem_dedup]
  set u := uniqDesc ranks with hu
  set t := u.takeWhile (fun x => decide (6 ≤ x)) with ht
  set d := u.dropWhile (fun x => decide (6 ≤ x)) with hd
  have hsplit : t ++ d = u := List.takeWhile_append_dropWhile _ _
  have htall : ∀ x ∈ t, 6 ≤ x := by
    intro x hx
    simpa using List.mem_takeWhile_imp hx
  have hdmem : ∀ x, x ∈ [5, 4, 3, 2] → x ∈ d := by
    intro x hx
    have hxr : x ∈ ranks := by
      have : x = 5 ∨ x = 4 ∨ x = 3 ∨ x = 2 := by
        simpa using hx
      rcases this with rfl | rfl | rfl | rfl
      · exact m5
      · exact m4
      · exact m3
      · exact m2
    have hxu : x ∈ u := (hmemu x).mpr hxr
    rw [← hsplit] at hxu
    rcases List.mem_append.mp hxu with hxt | hxd
    · have h6 := htall x hxt
      have hx5 : x ≤ 5 := by
        have : x = 5 ∨ x = 4 ∨ x = 3 ∨ x = 2 := by simpa using hx
        omega
      omega
    · exact hxd
  have hdsorted : List.Sorted (fun a b => b ≤ a) d := by
    rw [← hsplit] at hsorted
    exact hsorted.sublist (List.sublist_append_right t d)
  have hdnodup : d.Nodup := by
    rw [← hsplit] at hnodup
    exact hnodup.of_append_right
  have hdlt : ∀ x ∈ d, x < 6 := by
    intro x hx
    cases hde : d with
    | nil => rw [hde] at hx; exact absurd hx (List.not_mem_nil x)
    | cons y ys =>
      have hcons : List.dropWhile (fun x => decide (6 ≤ x)) u = y :: ys :=
        hd.symm.trans hde
      have hl : 0 < (List.dropWhile (fun x => decide (6 ≤ x)) u).length := by
        rw [hcons]
        simp
      have hhead := List.dropWhile_get_zero_not (fun x => decide (6 ≤ x)) u hl
      rw [get_zero_of_eq_cons hcons hl] at hhead
      have hy6 : ¬ 6 ≤ y := by simpa using hhead
      rw [hde] at hx
      rcases List.mem_cons.mp hx with rfl | hmem
      · omega
      · have := List.rel_of_sorted_cons (hde ▸ hdsorted) x hmem
        omega
  have hdsub : ∀ x ∈ d, x ∈ [5, 4, 3, 2] := by
    intro x hx
    have h2le : 2 ≤ x := hval x ((hmemu x).mp (hsplit ▸ List.mem_append_right t hx))
    have h6 : x < 6 := hdlt x hx
    have : x = 5 ∨ x = 4 ∨ x = 3 ∨ x = 2 := by omega
    rcases this with rfl | rfl | rfl | rfl <;> simp
  have hperm : d.Perm [5, 4, 3, 2] :=
    (List.perm_ext_iff_of_nodup hdnodup (by decide)).mpr
      (fun a => ⟨hdsub a, hdmem a⟩)
  have hdeq : d = [5, 4, 3, 2] :=
    List.eq_of_perm_of_sorted hperm hdsorted (by decide)
  exact ⟨t, by rw [← hsplit, hdeq], htall⟩

/-- In a duplicate-free rank list every distinct-rank multiplicity is 1. -/
theorem rankCountValues_of_nodup {ranks : List ℕ} (h : ranks.Nodup) :
    ∀ c ∈ rankCountValues ranks, c = 1 := by
  intro c hc
  rw [rankCountValues] at hc
  obtain ⟨r, hr, rfl⟩ := List.mem_map.mp hc
  exact List.count_eq_one_of_mem h (List.mem_dedup.mp hr)

/-- No paired rank means the pair count of `labelBestHand` is 0. -/
theorem pairsOf_of_nodup {ranks : List ℕ} (h : ranks.Nodup) : pairsOf ranks = 0 := by
  rw [pairsOf, List.countP_eq_zero]
  intro c hc
  simp [rankCountValues_of_nodup h c hc]

/-- No paired rank means the trips count of `labelBestHand` is 0. -/
theorem tripsOf_of_nodup {ranks : List ℕ} (h : ranks.Nodup) : tripsOf ranks = 0 := by
  rw [tripsOf, List.countP_eq_zero]
  intro c hc
  simp [rankCountValues_of_nodup h c hc]

/-- No paired rank means the quads count of `labelBestHand` is 0. -/
theorem quadsOf_of_nodup {ranks : List ℕ} (h : ranks.Nodup) : quadsOf ranks = 0 := by
  rw [quadsOf, List.countP_eq_zero]
  intro c hc
  simp [rankCountValues_of_nodup h c hc]

/-- With the wheel ranks present (and ranks valid), the straight scan reports a
positive straight high. -/
theorem straightHighOf_wheel_pos (ranks : List ℕ)
    (m2 : 2 ∈ ranks) (m3 : 3 ∈ ranks) (m4 : 4 ∈ ranks) (m5 : 5 ∈ ranks)
    (m14 : 14 ∈ ranks) (hval : ∀ r ∈ ranks, 2 ≤ r) :
    0 < straightHighOf ranks := by
  obtain ⟨t, htEq, htall⟩ := uniqDesc_wheel_suffix ranks m2 m3 m4 m5 hval
  have hseq : seqOf ranks = t ++ [5, 4, 3, 2, 1] := by
    rw [seqOf, htEq, if_pos m14, List.append_assoc]
    rfl
  have hgd : ∀ j, (t ++ [5, 4, 3, 2, 1]).getD (t.length + j) 0 = [5, 4, 3, 2, 1].getD j 0 := by
    intro j
    rw [List.getD_append_right t _ 0 (t.length + j) (by omega),
      show t.length + j - t.length = j from by omega]
  have hg0 : (seqOf ranks).getD t.length 0 = 5 := by
    rw [hseq]
    have := hgd 0
    rw [Nat.add_zero] at this
    rw [this]
    rfl
  have hg1 : (seqOf ranks).getD (t.length + 1) 0 = 4 := by rw [hseq, hgd 1]; rfl
  have hg2 : (seqOf ranks).getD (t.length + 1 + 1) 0 = 3 := by
    rw [hseq, show t.length + 1 + 1 = t.length + 2 from rfl, hgd 2]
    rfl
  have hg3 : (seqOf ranks).getD (t.length + 1 + 1 + 1) 0 = 2 := by
    rw [hseq, show t.length + 1 + 1 + 1 = t.length + 3 from rfl, hgd 3]
    rfl
  have hg4 : (seqOf ranks).getD (t.length + 1 + 1 + 1 + 1) 0 = 1 := by
    rw [hseq, show t.length + 1 + 1 + 1 + 1 = t.length + 4 from rfl, hgd 4]
    rfl
  have hlen : t.length + 1 + 1 + 1 + 1 < (seqOf ranks).length := by
    rw [hseq, List.length_append]
    simp
  have hreach := straightScanGo_reach (seqOf ranks) t.length
    (by rw [hg0, hg1]) (by rw [hg1, hg2]) (by rw [hg2, hg3]) (by rw [hg3, hg4]) hlen
    t.length (seqOf ranks).length 0 1 0 (by omega) (le_refl 1)
    (by rw [hseq, List.length_append]; simp)
  rw [straightHighOf]
  omega

/-- C4: for every card set (2 hole cards plus a board) that contains the ranks
A-2-3-4-5, with no flush, no paired rank, and no higher straight present,
`labelBestHand` classifies the hand as a Straight: the Ace-low wheel is
treated as a straight (with high card 5, though the label carries no rank). -/
theorem labelBestHand_wheel (hole board : List Card)
    (hlen : hole.length = 2)
    (m14 : 14 ∈ ranksOf (hole ++ board)) (m2 : 2 ∈ ranksOf (hole ++ board))
    (m3 : 3 ∈ ranksOf (hole ++ board)) (m4 : 4 ∈ ranksOf (hole ++ board))
    (m5 : 5 ∈ ranksOf (hole ++ board))
    (hnodup : (ranksOf (hole ++ board)).Nodup)
    (hnoflush : isFlushOf (suitsOf (hole ++ board)) = false)
    (hval : ∀ r ∈ ranksOf (hole ++ board), 2 ≤ r)
    (hnohigher : ∀ h, h < 15 → 6 ≤ h →
      ¬ ∀ j, j < 5 → h - j ∈ ranksOf (hole ++ board)) :
    labelBestHand hole board = "Straight" := by
  have hsh : 0 < straightHighOf (ranksOf (hole ++ board)) :=
    straightHighOf_wheel_pos _ m2 m3 m4 m5 m14 hval
  simp [labelBestHand, hlen, hnoflush, pairsOf_of_nodup hnodup,
    tripsOf_of_nodup hnodup, quadsOf_of_nodup hnodup, hsh.ne']

/-- A wheel hand for the C4 witness: A♠ 2♥ in the hole, 3♦ 4♣ 5♠ 9♥ J♦ on the
board. -/
def wheelHole : List Card := [(14, Suit.S), (2, Suit.H)]

/-- The board of the C4 witness hand. -/
def wheelBoard : List Card :=
  [(3, Suit.D), (4, Suit.C), (5, Suit.S), (9, Suit.H), (11, Suit.D)]

/-- C4 witness: the hypotheses hold of the concrete wheel hand, and
`labelBestHand` answers "Straight" on it. -/
theorem labelBestHand_wheel_witness :
    (ranksOf (wheelHole ++ wheelBoard)).Nodup ∧
      isFlushOf (suitsOf (wheelHole ++ wheelBoard)) = false ∧
      labelBestHand wheelHole wheelBoard = "Straight" :=
  ⟨by decide, by decide,
    labelBestHand_wheel wheelHole wheelBoard (by decide) (by decide) (by decide)
      (by decide) (by decide) (by decide) (by decide) (by decide) (by decide)
      (by decide)⟩

end CasinoGames
